import Mathlib

/-!
Verification of the votehub-nls-interface frontend poll-processing code.

The definitions below are shallow embeddings of the TypeScript source:
strings are Lean strings (lists of characters), JS numbers carrying poll
percentages are rationals, JS Map objects are insertion-ordered
association lists, and Array.prototype.sort (required stable and
consistent with its comparator by the ECMAScript spec) is modelled by a
stable insertion sort with the comparator's induced relation.
-/

namespace VoteHub

/-- Whitespace test modelling the character class of the JS regex as used
on the ASCII labels handled by the app. -/
def isWs (c : Char) : Bool :=
  c == ' ' || c == '\t' || c == '\n' || c == '\r'

/-- Embedding of the first replace in normalizeChoice (pollUtils.ts):
remove every period. -/
def removePeriods (l : List Char) : List Char :=
  l.filter (fun c => c != '.')

/-- Embedding of the second replace in normalizeChoice: remove every comma. -/
def removeCommas (l : List Char) : List Char :=
  l.filter (fun c => c != ',')

/-- Worker for collapseWs; the flag records whether the previous kept
position ended inside a whitespace run. -/
def collapseAux : Bool → List Char → List Char
  | _, [] => []
  | prevWs, c :: cs =>
    if isWs c then
      if prevWs then collapseAux true cs else ' ' :: collapseAux true cs
    else c :: collapseAux false cs

/-- Embedding of the third replace in normalizeChoice: every maximal run
of whitespace becomes one space. -/
def collapseWs (l : List Char) : List Char :=
  collapseAux false l

/-- Leading-whitespace removal, one half of JS String.prototype.trim. -/
def trimStart (l : List Char) : List Char :=
  l.dropWhile isWs

/-- Trailing-whitespace removal, the other half of trim. -/
def trimEnd (l : List Char) : List Char :=
  (l.reverse.dropWhile isWs).reverse

/-- Embedding of the final trim in normalizeChoice. -/
def trimWs (l : List Char) : List Char :=
  trimEnd (trimStart l)

/-- Character-list level normalizeChoice from frontend/app/utils/pollUtils.ts:
remove periods, remove commas, collapse whitespace runs, trim. -/
def normalizeCore (l : List Char) : List Char :=
  trimWs (collapseWs (removeCommas (removePeriods l)))

/-- normalizeChoice from frontend/app/utils/pollUtils.ts. -/
def normalizeChoice (s : String) : String :=
  ⟨normalizeCore s.data⟩

/-- JS string length of a Lean string (code units of the ASCII labels
handled by the app coincide with characters). -/
def jsLength (s : String) : Nat :=
  s.data.length

/-- ASCII lowercasing, modelling String.prototype.toLowerCase on the
ASCII poll-type and choice strings. -/
def lowerStr (s : String) : String :=
  ⟨s.data.map Char.toLower⟩

/-- Answer record from frontend/app/models: choice label and percentage.
The JS number is modelled as a rational. -/
structure Answer where
  choice : String
  pct : ℚ
deriving DecidableEq

/-- Poll record from frontend/app/models. -/
structure Poll where
  id : String
  subject : String
  poll_type : String
  pollster : String
  start_date : String
  end_date : String
  sample_size : Option ℚ
  population : String
  answers : List Answer
  created_at : String
  url : Option String
deriving DecidableEq

/-- Per-cluster record held in the choiceStats Map of
calculateChoicesWithColors. -/
structure Stats where
  total : ℚ
  count : Nat
  displayName : String
  originalNames : List String
deriving DecidableEq

/-- The choiceStats JS Map, as an insertion-ordered association list. -/
abbrev StatsMap : Type :=
  List (String × Stats)

/-- Map.prototype.get. -/
def lookupStats : StatsMap → String → Option Stats
  | [], _ => none
  | (k0, s0) :: rest, k => if k0 = k then some s0 else lookupStats rest k

/-- Map.prototype.set: replace in place when the key exists, else append,
preserving insertion order as JS Maps do. -/
def setStats : StatsMap → String → Stats → StatsMap
  | [], k, s => [(k, s)]
  | (k0, s0) :: rest, k, s =>
    if k0 = k then (k, s) :: rest else (k0, s0) :: setStats rest k s

/-- The body of the forEach in calculateChoicesWithColors: fold one
answer into the stats map. -/
def updateStats (m : StatsMap) (a : Answer) : StatsMap :=
  let normalized := normalizeChoice a.choice
  let stats := (lookupStats m normalized).getD
    { total := 0, count := 0, displayName := normalized, originalNames := [] }
  let stats1 : Stats :=
    { total := stats.total + a.pct
      count := stats.count + 1
      displayName := stats.displayName
      originalNames := stats.originalNames ++ [a.choice] }
  let stats2 : Stats :=
    if jsLength a.choice < jsLength stats1.displayName then
      { stats1 with displayName := a.choice }
    else stats1
  setStats m normalized stats2

/-- All answers of a poll list in iteration order (polls.forEach over
poll.answers.forEach). -/
def allAnswers (polls : List Poll) : List Answer :=
  polls.flatMap (fun p => p.answers)

/-- The fully built choiceStats map of calculateChoicesWithColors. -/
def buildStats (answers : List Answer) : StatsMap :=
  answers.foldl updateStats []

/-- One element of the uniqueChoices array in calculateChoicesWithColors. -/
structure UItem where
  normalized : String
  displayName : String
  average : ℚ
deriving DecidableEq

/-- The descending-average comparator's induced ordering on uniqueChoices
elements: a precedes b when a's average is at least b's. -/
def avgGE (a b : UItem) : Prop :=
  b.average ≤ a.average

instance : DecidableRel avgGE := fun a b => inferInstanceAs (Decidable (b.average ≤ a.average))

instance : IsTotal UItem avgGE := ⟨fun a b => le_total b.average a.average⟩

instance : IsTrans UItem avgGE := ⟨fun _ _ _ h1 h2 => le_trans h2 h1⟩

/-- The uniqueChoices array: map the stats entries to records with the
average and sort by average descending (Array.prototype.sort is stable,
modelled by insertion sort on the comparator's ordering). -/
def uniqueChoices (polls : List Poll) : List UItem :=
  List.insertionSort avgGE
    ((buildStats (allAnswers polls)).map
      (fun e => { normalized := e.1, displayName := e.2.displayName,
                  average := e.2.total / (e.2.count : ℚ) }))

/-- Element of the result of calculateChoicesWithColors. -/
structure ChoiceData where
  displayName : String
  average : ℚ
  color : String
deriving DecidableEq

/-- Record a color map (JS Record of string to string) as an association
list; lookup models property access. -/
def lookupCM : List (String × String) → String → Option String
  | [], _ => none
  | (k0, c0) :: rest, k => if k0 = k then some c0 else lookupCM rest k

/-- JS logical-or on a possibly-absent string: an absent or empty (falsy)
value yields the default. -/
def jsOr (o : Option String) (d : String) : String :=
  match o with
  | some s => if s = "" then d else s
  | none => d

/-- calculateChoicesWithColors from frontend/app/utils/pollUtils.ts:
take the ten highest-average choices and attach colors, with the gray
fallback of the source. -/
def calculateChoicesWithColors (polls : List Poll) (colorMap : List (String × String)) :
    List ChoiceData :=
  ((uniqueChoices polls).take 10).map
    (fun item =>
      { displayName := item.displayName
        average := item.average
        color := jsOr (lookupCM colorMap item.displayName) "#7f7f7f" })

/-- The rule chain reached by getWinnerColor (PollsTable.tsx) when the
color map has no usable entry. -/
def getWinnerFallbackColor (poll : Poll) (winnerChoice : String) : String :=
  let pollTypeNormalized := lowerStr poll.poll_type
  let winnerNormalized := lowerStr (normalizeChoice winnerChoice)
  if pollTypeNormalized = "approval" || pollTypeNormalized = "favorability" then
    if winnerNormalized = "disapprove" || winnerNormalized = "unfavorable" then "#e08728"
    else if winnerNormalized = "approve" || winnerNormalized = "favorable" then "#288544"
    else "#000000"
  else if pollTypeNormalized = "generic-ballot" then
    if winnerNormalized = "dem" then "#2853e0"
    else if winnerNormalized = "rep" then "#e02f28"
    else "#000000"
  else "#000000"

/-- getWinnerColor from frontend/app/components/PollsTable.tsx: a truthy
color-map entry wins, otherwise the poll-type rules, otherwise black. -/
def getWinnerColor (colorMap : List (String × String)) (poll : Poll)
    (winnerChoice : String) : String :=
  match lookupCM colorMap winnerChoice with
  | some c => if c = "" then getWinnerFallbackColor poll winnerChoice else c
  | none => getWinnerFallbackColor poll winnerChoice

/-- Numeric key of a YYYY-MM-DD date string: the digits read as one
number. On such strings its order agrees with the order of the epoch
timestamps the page comparator computes. -/
def dateKey (s : String) : Nat :=
  (s.data.filter Char.isDigit).foldl (fun n c => 10 * n + (c.toNat - 48)) 0

/-- Ordering induced by the page.tsx comparator on polls: a precedes b
when a's end date is at least b's. -/
def endDateGE (a b : Poll) : Prop :=
  dateKey b.end_date ≤ dateKey a.end_date

instance : DecidableRel endDateGE :=
  fun a b => inferInstanceAs (Decidable (dateKey b.end_date ≤ dateKey a.end_date))

instance : IsTotal Poll endDateGE := ⟨fun a b => le_total (dateKey b.end_date) (dateKey a.end_date)⟩

instance : IsTrans Poll endDateGE := ⟨fun _ _ _ h1 h2 => le_trans h2 h1⟩

/-- The sort in handleSearch (page.tsx): polls of one division sorted by
end date descending (stable JS sort modelled by insertion sort). -/
def sortPollsByEndDateDesc (polls : List Poll) : List Poll :=
  List.insertionSort endDateGE polls

/-- JS String.prototype.split with the one-character separator used by
handleSearch: an underscore opens a new leading segment, any other
character is prepended to the current leading segment (the result is
never empty). -/
def splitUnderscore : List Char → List (List Char)
  | [] => [[]]
  | c :: cs =>
    let r := splitUnderscore cs
    if c = '_' then [] :: r
    else (c :: r.headI) :: r.tail

/-- The division-key parsing in handleSearch (page.tsx): the segment
before the first underscore is the subject and the remaining segments
joined with hyphens are the poll type. -/
def parseDivisionKeyCore (key : List Char) : List Char × List Char :=
  match splitUnderscore key with
  | [] => ([], [])
  | subject :: pollTypeParts =>
    (subject, (pollTypeParts.intersperse ['-']).flatten)

/-- String-level wrapper of the division-key parsing. -/
def parseDivisionKey (key : String) : String × String :=
  ((parseDivisionKeyCore key.data).1.asString, (parseDivisionKeyCore key.data).2.asString)

/-- Modelled from the spec: the party enumeration of section 3; the
PartyResolver source (backend/services/party_affiliation_service.py) is
not part of the source tree given here. -/
inductive Party where
  | democrat
  | republican
  | independent
  | libertarian
  | green
  | other
  | unknown
deriving DecidableEq

/-- Modelled from the spec: the phase one caller resolving the shared
candidate name can be in — before its cache check, awaiting the one
in-flight lookup, holding the lookup, or finished with a party. -/
inductive CallerState where
  | idle
  | waiting
  | fetching
  | done (p : Party)
deriving DecidableEq

/-- Modelled from the spec: the PartyResolver state for one
previously-unseen candidate name — its cache slot, the per-name lock
(busy while a lookup is outstanding), the concurrent callers, and a
count of external lookups started. -/
structure ResolverState where
  cache : Option Party
  busy : Bool
  callers : List CallerState
  lookups : Nat
deriving DecidableEq

/-- Modelled from the spec: initial state for N concurrent resolutions of
one uncached name — empty cache slot, lock free, no lookups yet. -/
def resolverInit (n : Nat) : ResolverState :=
  { cache := none, busy := false, callers := List.replicate n CallerState.idle, lookups := 0 }

/-- Modelled from the spec (sections 4.5 and 5): the atomic steps of the
single-flight protocol. The cache check and lock acquisition happen
under the per-name lock, so they form one atomic step. -/
inductive ResolverStep : ResolverState → ResolverState → Prop where
  | checkHit (s : ResolverState) (i : Nat) (p : Party)
      (hc : s.callers.get? i = some CallerState.idle) (hp : s.cache = some p) :
      ResolverStep s { s with callers := s.callers.set i (CallerState.done p) }
  | checkBusy (s : ResolverState) (i : Nat)
      (hc : s.callers.get? i = some CallerState.idle) (hn : s.cache = none)
      (hb : s.busy = true) :
      ResolverStep s { s with callers := s.callers.set i CallerState.waiting }
  | acquire (s : ResolverState) (i : Nat)
      (hc : s.callers.get? i = some CallerState.idle) (hn : s.cache = none)
      (hb : s.busy = false) :
      ResolverStep s { cache := none, busy := true,
                       callers := s.callers.set i CallerState.fetching,
                       lookups := s.lookups + 1 }
  | complete (s : ResolverState) (i : Nat) (p : Party)
      (hc : s.callers.get? i = some CallerState.fetching) :
      ResolverStep s { cache := some p, busy := false,
                       callers := s.callers.set i (CallerState.done p),
                       lookups := s.lookups }
  | wake (s : ResolverState) (i : Nat) (p : Party)
      (hc : s.callers.get? i = some CallerState.waiting) (hp : s.cache = some p) :
      ResolverStep s { s with callers := s.callers.set i (CallerState.done p) }

/-- Modelled from the spec: the states an execution of N concurrent
resolutions of one uncached name can reach under any interleaving. -/
def ResolverReachable (n : Nat) (s : ResolverState) : Prop :=
  Relation.ReflTransGen ResolverStep (resolverInit n) s

/-! Specification-side definitions, written from the words of the spec in
order to be compared with the embedded code. -/

/-- Keep the shorter label, the current one on ties (the comparison of
the source is strict). -/
def pickShorter (d c : String) : String :=
  if jsLength c < jsLength d then c else d

/-- The answers contributing to the cluster of canonical key k, in scan
order (from the spec: the answers whose labels normalize to the key). -/
def contribsA (as : List Answer) (k : String) : List Answer :=
  as.filter (fun a => normalizeChoice a.choice == k)

/-- The cluster record the scan should produce for key k: total and count
over the contributing answers, the label sequence in observation order,
and the display name selected from the canonical key followed by the
observed labels. -/
def statsSpec (as : List Answer) (k : String) : Option Stats :=
  let cs := contribsA as k
  if cs = [] then none
  else some
    { total := (cs.map Answer.pct).sum
      count := cs.length
      displayName := (cs.map Answer.choice).foldl pickShorter k
      originalNames := cs.map Answer.choice }

/-- Keys of a stats map in insertion order. -/
def keysOf (m : StatsMap) : List String :=
  m.map Prod.fst

lemma lookupStats_setStats (m : StatsMap) (k k' : String) (s : Stats) :
    lookupStats (setStats m k s) k' = if k = k' then some s else lookupStats m k' := by
  induction m with
  | nil => simp [setStats, lookupStats]
  | cons e rest ih =>
    obtain ⟨k0, s0⟩ := e
    by_cases h0 : k0 = k
    · subst h0
      by_cases h1 : k0 = k'
      · subst h1; simp [setStats, lookupStats]
      · simp [setStats, lookupStats, h1]
    · by_cases h1 : k0 = k'
      · subst h1
        have hkk : ¬ k = k0 := fun h => h0 h.symm
        simp [setStats, lookupStats, h0, hkk]
      · simp [setStats, lookupStats, h0, h1, ih]

lemma isSome_lookupStats_iff_mem_keys (m : StatsMap) (k : String) :
    (lookupStats m k).isSome = true ↔ k ∈ keysOf m := by
  induction m with
  | nil => simp [lookupStats, keysOf]
  | cons e rest ih =>
    obtain ⟨k0, s0⟩ := e
    by_cases h0 : k0 = k
    · subst h0; simp [lookupStats, keysOf]
    · have h0' : ¬ k = k0 := fun h => h0 h.symm
      simp [lookupStats, keysOf, h0, h0', ih]

lemma keysOf_setStats (m : StatsMap) (k : String) (s : Stats) :
    keysOf (setStats m k s) =
      if (lookupStats m k).isSome then keysOf m else keysOf m ++ [k] := by
  induction m with
  | nil => simp [setStats, keysOf, lookupStats]
  | cons e rest ih =>
    obtain ⟨k0, s0⟩ := e
    by_cases h0 : k0 = k
    · subst h0; simp [setStats, keysOf, lookupStats]
    · simp [setStats, keysOf, lookupStats, h0]
      by_cases h1 : (lookupStats rest k).isSome <;> simpa [keysOf, h1] using ih

lemma nodup_keysOf_setStats (m : StatsMap) (k : String) (s : Stats)
    (h : (keysOf m).Nodup) : (keysOf (setStats m k s)).Nodup := by
  rw [keysOf_setStats]
  by_cases h1 : (lookupStats m k).isSome
  · simp [h1, h]
  · have hk : k ∉ keysOf m := by
      intro hmem
      exact h1 ((isSome_lookupStats_iff_mem_keys m k).mpr hmem)
    simp [h1, List.nodup_append, h, hk]

lemma nodup_keysOf_buildStats (as : List Answer) :
    (keysOf (buildStats as)).Nodup := by
  suffices h : ∀ m : StatsMap, (keysOf m).Nodup → (keysOf (as.foldl updateStats m)).Nodup by
    exact h [] (by simp [keysOf])
  induction as with
  | nil => intro m hm; simpa using hm
  | cons a rest ih =>
    intro m hm
    simp only [List.foldl_cons]
    exact ih _ (nodup_keysOf_setStats _ _ _ hm)

lemma lookupStats_of_mem (m : StatsMap) (k : String) (s : Stats)
    (hnd : (keysOf m).Nodup) (hmem : (k, s) ∈ m) : lookupStats m k = some s := by
  induction m with
  | nil => cases hmem
  | cons e rest ih =>
    obtain ⟨k0, s0⟩ := e
    have hnd' : k0 ∉ keysOf rest ∧ (keysOf rest).Nodup := by
      have h := hnd
      simp only [keysOf, List.map_cons] at h
      exact List.nodup_cons.mp h
    rcases List.mem_cons.mp hmem with heq | hrest
    · cases heq
      simp [lookupStats]
    · by_cases h0 : k0 = k
      · subst h0
        exact absurd (List.mem_map.mpr ⟨(k0, s), hrest, rfl⟩) hnd'.1
      · simp [lookupStats, h0, ih hnd'.2 hrest]

lemma updateStats_eq (m : StatsMap) (a : Answer) :
    updateStats m a =
      setStats m (normalizeChoice a.choice)
        (let prev := (lookupStats m (normalizeChoice a.choice)).getD
          { total := 0, count := 0, displayName := normalizeChoice a.choice,
            originalNames := [] }
         { total := prev.total + a.pct
           count := prev.count + 1
           displayName := pickShorter prev.displayName a.choice
           originalNames := prev.originalNames ++ [a.choice] }) := by
  simp only [updateStats, pickShorter]
  split <;> rfl

lemma contribsA_append_singleton (as : List Answer) (a : Answer) (k : String) :
    contribsA (as ++ [a]) k =
      contribsA as k ++ if normalizeChoice a.choice = k then [a] else [] := by
  by_cases h : normalizeChoice a.choice = k <;> simp [contribsA, List.filter_append, h]

/-- The built choiceStats map agrees key by key with the cluster
specification. -/
lemma lookupStats_buildStats (as : List Answer) (k : String) :
    lookupStats (buildStats as) k = statsSpec as k := by
  induction as using List.reverseRecOn with
  | nil => simp [buildStats, lookupStats, statsSpec, contribsA]
  | append_singleton as a ih =>
    have hb : buildStats (as ++ [a]) = updateStats (buildStats as) a := by
      simp [buildStats, List.foldl_append]
    rw [hb, updateStats_eq, lookupStats_setStats]
    by_cases hk : normalizeChoice a.choice = k
    · subst hk
      rw [if_pos rfl]
      by_cases hcs : contribsA as (normalizeChoice a.choice) = []
      · simp [statsSpec, contribsA_append_singleton, hcs, ih, pickShorter]
      · have hspec : statsSpec as (normalizeChoice a.choice) =
            some
              { total := ((contribsA as (normalizeChoice a.choice)).map Answer.pct).sum
                count := (contribsA as (normalizeChoice a.choice)).length
                displayName := ((contribsA as (normalizeChoice a.choice)).map
                  Answer.choice).foldl pickShorter (normalizeChoice a.choice)
                originalNames := (contribsA as (normalizeChoice a.choice)).map
                  Answer.choice } := by
          simp [statsSpec, hcs]
        simp [statsSpec, contribsA_append_singleton, hcs, ih, hspec, pickShorter,
          List.foldl_append]
    · rw [if_neg hk, ih]
      simp [statsSpec, contribsA_append_singleton, hk]

/-- The left fold of pickShorter selects the first element of minimal
length of the candidate sequence: everything before it is strictly
longer, everything after it no shorter. -/
lemma foldl_pickShorter_decomp (x : String) (xs : List String) :
    ∃ l₁ l₂, x :: xs = l₁ ++ (xs.foldl pickShorter x) :: l₂ ∧
      (∀ c ∈ l₁, jsLength (xs.foldl pickShorter x) < jsLength c) ∧
      (∀ c ∈ l₂, jsLength (xs.foldl pickShorter x) ≤ jsLength c) := by
  induction xs generalizing x with
  | nil => exact ⟨[], [], by simp, by simp, by simp⟩
  | cons c rest ih =>
    by_cases h : jsLength c < jsLength x
    · have hp : pickShorter x c = c := by simp [pickShorter, h]
      obtain ⟨l₁, l₂, hdec, hlt, hle⟩ := ih c
      have hfoldl : (c :: rest).foldl pickShorter x = rest.foldl pickShorter c := by
        simp [List.foldl_cons, hp]
      have hfc : jsLength (rest.foldl pickShorter c) ≤ jsLength c := by
        cases l₁ with
        | nil =>
          have hc : c = rest.foldl pickShorter c := by
            have := hdec
            simp only [List.nil_append] at this
            exact (List.cons.injEq _ _ _ _).mp this |>.1
          exact le_of_eq (congrArg jsLength hc.symm)
        | cons d l₁' =>
          have hc : c = d := by
            have := hdec
            simp only [List.cons_append] at this
            exact (List.cons.injEq _ _ _ _).mp this |>.1
          exact le_of_lt (hc ▸ hlt d (List.mem_cons_self d l₁'))
      refine ⟨x :: l₁, l₂, ?_, ?_, by rw [hfoldl]; exact hle⟩
      · rw [hfoldl]
        simpa using hdec
      · intro d hd
        rw [hfoldl]
        rcases List.mem_cons.mp hd with hdx | hdl
        · subst hdx
          exact lt_of_le_of_lt hfc h
        · exact hlt d hdl
    · have hp : pickShorter x c = x := by simp [pickShorter, h]
      obtain ⟨l₁, l₂, hdec, hlt, hle⟩ := ih x
      have hfoldl : (c :: rest).foldl pickShorter x = rest.foldl pickShorter x := by
        simp [List.foldl_cons, hp]
      have hxc : jsLength x ≤ jsLength c := le_of_not_lt h
      cases l₁ with
      | nil =>
        have hinj := (List.cons.injEq _ _ _ _).mp (by simpa using hdec)
        refine ⟨[], c :: rest, ?_, by simp, ?_⟩
        · rw [hfoldl]
          simp [← hinj.1]
        · intro d hd
          rw [hfoldl]
          rcases List.mem_cons.mp hd with hdc | hdr
          · subst hdc
            exact le_trans (le_of_eq (congrArg jsLength hinj.1.symm)) hxc
          · rw [hinj.2] at hdr
            exact hle d hdr
      | cons d l₁' =>
        have hinj := (List.cons.injEq _ _ _ _).mp (by simpa using hdec)
        refine ⟨x :: c :: l₁', l₂, ?_, ?_, by rw [hfoldl]; exact hle⟩
        · rw [hfoldl]
          simp only [List.cons_append]
          exact congrArg (fun t => x :: c :: t) hinj.2
        · intro e he
          rw [hfoldl]
          have hfx : jsLength (rest.foldl pickShorter x) < jsLength x := by
            have := hlt d (List.mem_cons_self d l₁')
            rw [← hinj.1] at this
            exact this
          rcases List.mem_cons.mp he with hex | he2
          · subst hex; exact hfx
          · rcases List.mem_cons.mp he2 with hec | hel
            · subst hec
              exact lt_of_lt_of_le hfx hxc
            · exact hlt e (List.mem_cons_of_mem d hel)

/-! Lemmas about the whitespace collapse and the trim. -/

lemma isWs_space : isWs ' ' = true := by decide

lemma collapseAux_cons_ws_true {c : Char} (cs : List Char) (hc : isWs c = true) :
    collapseAux true (c :: cs) = collapseAux true cs := by
  simp [collapseAux, hc]

lemma collapseAux_cons_ws_false {c : Char} (cs : List Char) (hc : isWs c = true) :
    collapseAux false (c :: cs) = ' ' :: collapseAux true cs := by
  simp [collapseAux, hc]

lemma collapseAux_cons_not_ws {c : Char} (cs : List Char) (hc : isWs c = false)
    (b : Bool) : collapseAux b (c :: cs) = c :: collapseAux false cs := by
  cases b <;> simp [collapseAux, hc]

lemma collapseAux_run_head (r : List Char) (hr : r ≠ [])
    (hw : ∀ c ∈ r, isWs c = true) (y : List Char) :
    ∀ b, collapseAux b (r ++ y) = collapseAux b (' ' :: y) := by
  induction r with
  | nil => exact absurd rfl hr
  | cons c r' ih =>
    intro b
    have hc : isWs c = true := hw c (List.mem_cons_self c r')
    cases r' with
    | nil =>
      cases b with
      | true =>
        rw [List.cons_append, List.nil_append, collapseAux_cons_ws_true y hc,
          collapseAux_cons_ws_true y isWs_space]
      | false =>
        rw [List.cons_append, List.nil_append, collapseAux_cons_ws_false y hc,
          collapseAux_cons_ws_false y isWs_space]
    | cons d r'' =>
      have ih' := ih (List.cons_ne_nil d r'') (fun e he => hw e (List.mem_cons_of_mem c he))
      have h1 : collapseAux true ((d :: r'') ++ y) = collapseAux true y := by
        rw [ih' true, collapseAux_cons_ws_true y isWs_space]
      cases b with
      | true =>
        rw [List.cons_append, collapseAux_cons_ws_true _ hc, h1,
          collapseAux_cons_ws_true y isWs_space]
      | false =>
        rw [List.cons_append, collapseAux_cons_ws_false _ hc, h1,
          collapseAux_cons_ws_false y isWs_space]

lemma collapseAux_append_run (r : List Char) (hr : r ≠ [])
    (hw : ∀ c ∈ r, isWs c = true) :
    ∀ (x y : List Char) (b : Bool),
      collapseAux b ((x ++ r) ++ y) = collapseAux b (x ++ ' ' :: y) := by
  intro x
  induction x with
  | nil =>
    intro y b
    rw [List.nil_append, List.nil_append]
    exact collapseAux_run_head r hr hw y b
  | cons c x' ih =>
    intro y b
    rw [List.cons_append, List.cons_append, List.cons_append]
    by_cases hc : isWs c = true
    · cases b with
      | true =>
        rw [collapseAux_cons_ws_true _ hc, collapseAux_cons_ws_true _ hc]
        exact ih y true
      | false =>
        rw [collapseAux_cons_ws_false _ hc, collapseAux_cons_ws_false _ hc]
        exact congrArg (' ' :: ·) (ih y true)
    · rw [collapseAux_cons_not_ws _ (Bool.eq_false_iff.mpr hc) b,
        collapseAux_cons_not_ws _ (Bool.eq_false_iff.mpr hc) b]
      exact congrArg (c :: ·) (ih y false)

lemma dropWhile_collapseAux_true (w : List Char) :
    (collapseAux true w).dropWhile isWs = (collapseAux false w).dropWhile isWs := by
  cases w with
  | nil => rfl
  | cons c cs =>
    by_cases hc : isWs c = true
    · rw [collapseAux_cons_ws_true cs hc, collapseAux_cons_ws_false cs hc]
      simp [List.dropWhile, isWs_space]
    · rw [collapseAux_cons_not_ws cs (Bool.eq_false_iff.mpr hc) true,
        collapseAux_cons_not_ws cs (Bool.eq_false_iff.mpr hc) false]

lemma collapseAux_append_space (x : List Char) :
    ∀ b, collapseAux b (x ++ [' ']) = collapseAux b x ++ [' '] ∨
      collapseAux b (x ++ [' ']) = collapseAux b x := by
  induction x with
  | nil =>
    intro b
    cases b with
    | true => right; simp [collapseAux, isWs_space]
    | false => left; simp [collapseAux, isWs_space]
  | cons c x' ih =>
    intro b
    by_cases hc : isWs c = true
    · cases b with
      | true => simpa [collapseAux, hc] using ih true
      | false =>
        rcases ih true with h | h
        · left; simp [collapseAux, hc, h]
        · right; simp [collapseAux, hc, h]
    · rcases ih false with h | h
      · left; simp [collapseAux, hc, h]
      · right; simp [collapseAux, hc, h]

lemma trimEnd_append_space (y : List Char) : trimEnd (y ++ [' ']) = trimEnd y := by
  simp [trimEnd, List.dropWhile, isWs_space]

lemma trimWs_append_space (z : List Char) : trimWs (z ++ [' ']) = trimWs z := by
  unfold trimWs trimStart
  rw [List.dropWhile_append]
  by_cases h : (z.dropWhile isWs).isEmpty = true
  · have hz : ∀ c ∈ z, isWs c = true := by
      intro c hc
      by_contra hnc
      have : z.dropWhile isWs ≠ [] := by
        intro hemp
        have hsub : z.dropWhile isWs <:+ z := List.dropWhile_suffix isWs
        have := List.dropWhile_eq_nil_iff.mp hemp
        exact hnc (this c hc)
      exact this (List.isEmpty_iff.mp h)
    rw [if_pos h]
    have h2 : (z.dropWhile isWs).isEmpty = true := h
    simp [List.dropWhile, isWs_space, List.isEmpty_iff.mp h2, trimEnd]
  · rw [if_neg h]
    exact trimEnd_append_space (z.dropWhile isWs)

/-! The step relation generated by the punctuation and whitespace edits
of the claim: removing or inserting one period or comma, replacing a
nonempty whitespace run by another, and adding or removing leading or
trailing whitespace. -/

inductive LabelStep : List Char → List Char → Prop where
  | period (u v : List Char) : LabelStep (u ++ '.' :: v) (u ++ v)
  | comma (u v : List Char) : LabelStep (u ++ ',' :: v) (u ++ v)
  | wsRun (u r₁ r₂ v : List Char) (h₁ : r₁ ≠ []) (h₂ : r₂ ≠ [])
      (hw₁ : ∀ c ∈ r₁, isWs c = true) (hw₂ : ∀ c ∈ r₂, isWs c = true) :
      LabelStep (u ++ r₁ ++ v) (u ++ r₂ ++ v)
  | leadWs (r v : List Char) (h : ∀ c ∈ r, isWs c = true) : LabelStep (r ++ v) v
  | trailWs (u r : List Char) (h : ∀ c ∈ r, isWs c = true) : LabelStep (u ++ r) u

/-- Two labels differ only by periods, commas, or whitespace runs
(leading and trailing whitespace included) when a chain of such edits,
in either direction, links them. -/
def LabelEquiv (s t : List Char) : Prop :=
  Relation.ReflTransGen (fun a b => LabelStep a b ∨ LabelStep b a) s t

lemma isWs_not_period {c : Char} (h : isWs c = true) : (c != '.') = true := by
  revert h
  unfold isWs
  rcases Bool.or_eq_true _ _ |>.symm with _
  intro h
  rcases Bool.or_eq_true _ _ |>.mp h with h1 | h2
  · rcases Bool.or_eq_true _ _ |>.mp h1 with h3 | h4
    · rcases Bool.or_eq_true _ _ |>.mp h3 with h5 | h6
      · simp_all
      · simp_all
    · simp_all
  · simp_all

lemma isWs_not_comma {c : Char} (h : isWs c = true) : (c != ',') = true := by
  revert h
  unfold isWs
  intro h
  rcases Bool.or_eq_true _ _ |>.mp h with h1 | h2
  · rcases Bool.or_eq_true _ _ |>.mp h1 with h3 | h4
    · rcases Bool.or_eq_true _ _ |>.mp h3 with h5 | h6
      · simp_all
      · simp_all
    · simp_all
  · simp_all

/-- Strip periods and commas in one go, for stating the filter lemmas. -/
def stripPC (l : List Char) : List Char :=
  removeCommas (removePeriods l)

lemma stripPC_append (u v : List Char) : stripPC (u ++ v) = stripPC u ++ stripPC v := by
  simp [stripPC, removeCommas, removePeriods, List.filter_append]

lemma stripPC_period (v : List Char) : stripPC ('.' :: v) = stripPC v := by
  simp [stripPC, removeCommas, removePeriods, List.filter]

lemma stripPC_comma (v : List Char) : stripPC (',' :: v) = stripPC v := by
  simp [stripPC, removeCommas, removePeriods, List.filter]

lemma stripPC_ws_run (r : List Char) (hw : ∀ c ∈ r, isWs c = true) :
    stripPC r = r := by
  unfold stripPC removeCommas removePeriods
  rw [List.filter_eq_self.mpr (fun c hc => isWs_not_period (hw c hc)),
    List.filter_eq_self.mpr (fun c hc => isWs_not_comma (hw c hc))]

lemma normalizeCore_eq_stripPC (l : List Char) :
    normalizeCore l = trimWs (collapseWs (stripPC l)) := rfl

/-- normalizeChoice is invariant under one punctuation or whitespace edit. -/
lemma normalizeCore_step (s t : List Char) (h : LabelStep s t) :
    normalizeCore s = normalizeCore t := by
  cases h with
  | period u v =>
    rw [normalizeCore_eq_stripPC, normalizeCore_eq_stripPC, stripPC_append,
      stripPC_period, ← stripPC_append]
  | comma u v =>
    rw [normalizeCore_eq_stripPC, normalizeCore_eq_stripPC, stripPC_append,
      stripPC_comma, ← stripPC_append]
  | wsRun u r₁ r₂ v h₁ h₂ hw₁ hw₂ =>
    rw [normalizeCore_eq_stripPC, normalizeCore_eq_stripPC]
    have e₁ : stripPC ((u ++ r₁) ++ v) = (stripPC u ++ r₁) ++ stripPC v := by
      rw [stripPC_append, stripPC_append, stripPC_ws_run r₁ hw₁]
    have e₂ : stripPC ((u ++ r₂) ++ v) = (stripPC u ++ r₂) ++ stripPC v := by
      rw [stripPC_append, stripPC_append, stripPC_ws_run r₂ hw₂]
    rw [e₁, e₂]
    unfold collapseWs
    rw [collapseAux_append_run r₁ h₁ hw₁ (stripPC u) (stripPC v) false,
      collapseAux_append_run r₂ h₂ hw₂ (stripPC u) (stripPC v) false]
  | leadWs r v hw =>
    by_cases hr : r = []
    · subst hr
      rw [List.nil_append]
    · rw [normalizeCore_eq_stripPC, normalizeCore_eq_stripPC, stripPC_append,
        stripPC_ws_run r hw]
      unfold collapseWs
      rw [collapseAux_run_head r hr hw (stripPC t) false,
        collapseAux_cons_ws_false (stripPC t) isWs_space]
      unfold trimWs trimStart
      rw [show List.dropWhile isWs (' ' :: collapseAux true (stripPC t)) =
          List.dropWhile isWs (collapseAux true (stripPC t)) by
        simp [List.dropWhile, isWs_space]]
      rw [dropWhile_collapseAux_true]
  | trailWs u r hw =>
    by_cases hr : r = []
    · subst hr
      rw [List.append_nil]
    · rw [normalizeCore_eq_stripPC, normalizeCore_eq_stripPC, stripPC_append,
        stripPC_ws_run r hw]
      unfold collapseWs
      have hrun := collapseAux_append_run r hr hw (stripPC t) [] false
      rw [List.append_nil] at hrun
      rw [hrun, show stripPC t ++ ' ' :: ([] : List Char) = stripPC t ++ [' '] from rfl]
      rcases collapseAux_append_space (stripPC t) false with hsp | hsp
      · rw [hsp, trimWs_append_space]
      · rw [hsp]

/-- normalizeChoice agrees on labels linked by any chain of punctuation
and whitespace edits. -/
lemma normalizeCore_labelEquiv {s t : List Char} (h : LabelEquiv s t) :
    normalizeCore s = normalizeCore t := by
  induction h with
  | refl => rfl
  | tail _ hstep ih =>
    rcases hstep with h1 | h1
    · exact ih.trans (normalizeCore_step _ _ h1)
    · exact ih.trans (normalizeCore_step _ _ h1).symm

/-! Structure of normalized output, for idempotence. -/

/-- Adjacent characters are never both whitespace. -/
def NoTwoWs (a b : Char) : Prop :=
  ¬(isWs a = true ∧ isWs b = true)

lemma head?_dropWhile_false {p : Char → Bool} :
    ∀ (l : List Char) (c : Char), (l.dropWhile p).head? = some c → p c = false := by
  intro l
  induction l with
  | nil => intro c h; cases h
  | cons d t ih =>
    intro c h
    by_cases hd : p d = true
    · rw [List.dropWhile_cons_of_pos hd] at h
      exact ih c h
    · rw [List.dropWhile_cons_of_neg hd] at h
      cases h
      exact Bool.eq_false_iff.mpr hd

lemma mem_collapseAux {c : Char} :
    ∀ (l : List Char) (b : Bool), c ∈ collapseAux b l → c ∈ l ∨ c = ' ' := by
  intro l
  induction l with
  | nil => intro b h; cases h
  | cons d t ih =>
    intro b h
    by_cases hd : isWs d = true
    · cases b with
      | true =>
        rw [collapseAux_cons_ws_true t hd] at h
        rcases ih true h with h1 | h1
        · exact Or.inl (List.mem_cons_of_mem d h1)
        · exact Or.inr h1
      | false =>
        rw [collapseAux_cons_ws_false t hd] at h
        rcases List.mem_cons.mp h with h1 | h1
        · exact Or.inr h1
        · rcases ih true h1 with h2 | h2
          · exact Or.inl (List.mem_cons_of_mem d h2)
          · exact Or.inr h2
    · rw [collapseAux_cons_not_ws t (Bool.eq_false_iff.mpr hd) b] at h
      rcases List.mem_cons.mp h with h1 | h1
      · exact Or.inl (h1 ▸ List.mem_cons_self d t)
      · rcases ih false h1 with h2 | h2
        · exact Or.inl (List.mem_cons_of_mem d h2)
        · exact Or.inr h2

lemma ws_mem_collapseAux {c : Char} :
    ∀ (l : List Char) (b : Bool), c ∈ collapseAux b l → isWs c = true → c = ' ' := by
  intro l
  induction l with
  | nil => intro b h; cases h
  | cons d t ih =>
    intro b h hw
    by_cases hd : isWs d = true
    · cases b with
      | true =>
        rw [collapseAux_cons_ws_true t hd] at h
        exact ih true h hw
      | false =>
        rw [collapseAux_cons_ws_false t hd] at h
        rcases List.mem_cons.mp h with h1 | h1
        · exact h1
        · exact ih true h1 hw
    · rw [collapseAux_cons_not_ws t (Bool.eq_false_iff.mpr hd) b] at h
      rcases List.mem_cons.mp h with h1 | h1
      · exact absurd (h1 ▸ hw) (Bool.eq_false_iff.mp (Bool.eq_false_iff.mpr hd) ∘ id)
      · exact ih false h1 hw

lemma head?_collapseAux_true :
    ∀ (l : List Char) (c : Char), (collapseAux true l).head? = some c → isWs c = false := by
  intro l
  induction l with
  | nil => intro c h; cases h
  | cons d t ih =>
    intro c h
    by_cases hd : isWs d = true
    · rw [collapseAux_cons_ws_true t hd] at h
      exact ih c h
    · rw [collapseAux_cons_not_ws t (Bool.eq_false_iff.mpr hd) true] at h
      cases h
      exact Bool.eq_false_iff.mpr hd

lemma chain'_collapseAux :
    ∀ (l : List Char) (b : Bool), List.Chain' NoTwoWs (collapseAux b l) := by
  intro l
  induction l with
  | nil => intro b; exact List.chain'_nil
  | cons d t ih =>
    intro b
    by_cases hd : isWs d = true
    · cases b with
      | true =>
        rw [collapseAux_cons_ws_true t hd]
        exact ih true
      | false =>
        rw [collapseAux_cons_ws_false t hd]
        refine List.chain'_cons'.mpr ⟨?_, ih true⟩
        intro y hy
        intro hcon
        exact Bool.eq_false_iff.mp (head?_collapseAux_true t y hy) hcon.2
    · rw [collapseAux_cons_not_ws t (Bool.eq_false_iff.mpr hd) b]
      refine List.chain'_cons'.mpr ⟨?_, ih false⟩
      intro y hy
      intro hcon
      exact Bool.eq_false_iff.mp (Bool.eq_false_iff.mpr hd) hcon.1

/-- The shape every normalizeChoice output has: no periods or commas,
only plain spaces as whitespace, no two adjacent whitespace characters,
and no whitespace at either end. -/
def NormalizedForm (l : List Char) : Prop :=
  (∀ c ∈ l, (c != '.') = true ∧ (c != ',') = true ∧ (isWs c = true → c = ' ')) ∧
  List.Chain' NoTwoWs l ∧
  (∀ c, l.head? = some c → isWs c = false) ∧
  (∀ c, l.getLast? = some c → isWs c = false)

lemma collapseAux_eq_self :
    ∀ (l : List Char), (∀ c ∈ l, isWs c = true → c = ' ') →
      List.Chain' NoTwoWs l →
      ∀ b : Bool, (b = true → ∀ c, l.head? = some c → isWs c = false) →
      collapseAux b l = l := by
  intro l
  induction l with
  | nil => intro _ _ b _; cases b <;> rfl
  | cons d t ih =>
    intro hws hch b hb
    obtain ⟨hrel, hch'⟩ := List.chain'_cons'.mp hch
    by_cases hd : isWs d = true
    · have hd' : d = ' ' := hws d (List.mem_cons_self d t) hd
      cases b with
      | true =>
        exact absurd hd (by rw [hb rfl d rfl]; exact Bool.false_ne_true)
      | false =>
        rw [collapseAux_cons_ws_false t hd]
        rw [ih (fun c hc => hws c (List.mem_cons_of_mem d hc)) hch' true ?_]
        · rw [hd']
        · intro _ c hc
          by_contra hcon
          exact hrel c hc ⟨hd, Bool.not_eq_false _ |>.mp hcon⟩
    · rw [collapseAux_cons_not_ws t (Bool.eq_false_iff.mpr hd) b]
      rw [ih (fun c hc => hws c (List.mem_cons_of_mem d hc)) hch' false (by intro h; cases h)]

lemma dropWhile_eq_self_of_head {p : Char → Bool} (l : List Char)
    (h : ∀ c, l.head? = some c → p c = false) : l.dropWhile p = l := by
  cases l with
  | nil => rfl
  | cons d t => exact List.dropWhile_cons_of_neg (by rw [h d rfl]; exact Bool.false_ne_true)

/-- A list already in normalized shape is fixed by normalizeCore. -/
lemma normalizeCore_eq_self {l : List Char} (h : NormalizedForm l) :
    normalizeCore l = l := by
  obtain ⟨hmem, hch, hhead, hlast⟩ := h
  have h1 : removePeriods l = l :=
    List.filter_eq_self.mpr (fun c hc => (hmem c hc).1)
  have h2 : removeCommas l = l :=
    List.filter_eq_self.mpr (fun c hc => (hmem c hc).2.1)
  have h3 : collapseWs l = l := by
    unfold collapseWs
    exact collapseAux_eq_self l (fun c hc => (hmem c hc).2.2) hch false (by intro h; cases h)
  have h4 : trimStart l = l := dropWhile_eq_self_of_head l hhead
  have h5 : trimEnd l = l := by
    unfold trimEnd
    rw [dropWhile_eq_self_of_head l.reverse (by
      intro c hc
      rw [List.head?_reverse] at hc
      exact hlast c hc), List.reverse_reverse]
  unfold normalizeCore trimWs
  rw [h1, h2, h3, h4, h5]

lemma trimEnd_isPrefix (y : List Char) : trimEnd y <+: y := by
  have h1 : (trimEnd y).reverse <:+ y.reverse := by
    unfold trimEnd
    rw [List.reverse_reverse]
    exact List.dropWhile_suffix isWs
  exact List.reverse_suffix.mp h1

lemma mem_trimWs {c : Char} {l : List Char} (h : c ∈ trimWs l) : c ∈ l := by
  unfold trimWs trimEnd trimStart at h
  have h1 := List.mem_reverse.mp h
  have h2 := (List.dropWhile_sublist isWs).subset h1
  have h3 := List.mem_reverse.mp h2
  exact (List.dropWhile_sublist isWs).subset h3

/-- The output of normalizeCore is always in normalized shape. -/
lemma normalizedForm_normalizeCore (l : List Char) :
    NormalizedForm (normalizeCore l) := by
  rw [normalizeCore_eq_stripPC]
  refine ⟨?_, ?_, ?_, ?_⟩
  · intro c hc
    have hcol : c ∈ collapseWs (stripPC l) := mem_trimWs hc
    rcases mem_collapseAux (stripPC l) false hcol with hin | hsp
    · have hmc := List.mem_filter.mp hin
      have hmp := List.mem_filter.mp hmc.1
      exact ⟨hmp.2, hmc.2, fun hw => ws_mem_collapseAux (stripPC l) false hcol hw⟩
    · subst hsp
      exact ⟨by decide, by decide, fun _ => rfl⟩
  · have hch : List.Chain' NoTwoWs (collapseWs (stripPC l)) :=
      chain'_collapseAux (stripPC l) false
    have hts : List.Chain' NoTwoWs (trimStart (collapseWs (stripPC l))) :=
      List.Chain'.suffix hch (List.dropWhile_suffix isWs)
    exact List.Chain'.prefix hts (trimEnd_isPrefix _)
  · intro c hc
    have hc' : (trimEnd (trimStart (collapseWs (stripPC l)))).head? = some c := hc
    obtain ⟨t, ht⟩ := trimEnd_isPrefix (trimStart (collapseWs (stripPC l)))
    have hhead : (trimStart (collapseWs (stripPC l))).head? = some c := by
      rw [← ht]
      cases htE : trimEnd (trimStart (collapseWs (stripPC l))) with
      | nil => rw [htE] at hc'; cases hc'
      | cons d t' =>
        rw [htE] at hc'
        cases hc'
        rw [List.cons_append]
        rfl
    exact head?_dropWhile_false _ c hhead
  · intro c hc
    unfold trimWs trimEnd at hc
    rw [List.getLast?_reverse] at hc
    exact head?_dropWhile_false _ c hc

/-! Invariant of the single-flight resolver model. -/

/-- Number of callers currently holding the lookup. -/
def countFetching (cs : List CallerState) : Nat :=
  (cs.filter (fun c => decide (c = CallerState.fetching))).length

/-- The inductive invariant: the lookup counter matches the protocol
phase, the lock implies an empty cache slot, exactly the lock holder is
fetching, and every finished caller carries the cached party. -/
def ResolverInv (s : ResolverState) : Prop :=
  s.lookups = (if s.busy || s.cache.isSome then 1 else 0) ∧
  (s.busy = true → s.cache = none) ∧
  countFetching s.callers = (if s.busy then 1 else 0) ∧
  (∀ p : Party, CallerState.done p ∈ s.callers → s.cache = some p)

lemma countFetching_cons (d : CallerState) (t : List CallerState) :
    countFetching (d :: t) =
      (if d = CallerState.fetching then 1 else 0) + countFetching t := by
  by_cases hd : d = CallerState.fetching <;>
    simp [countFetching, List.filter, hd, Nat.add_comm]

lemma countFetching_set (cs : List CallerState) (i : Nat) (x y : CallerState)
    (h : cs.get? i = some y) :
    countFetching (cs.set i x) + (if y = CallerState.fetching then 1 else 0) =
      countFetching cs + (if x = CallerState.fetching then 1 else 0) := by
  induction cs generalizing i with
  | nil => cases h
  | cons d t ih =>
    cases i with
    | zero =>
      cases h
      rw [List.set_cons_zero, countFetching_cons, countFetching_cons]
      omega
    | succ n =>
      rw [List.set_cons_succ, countFetching_cons, countFetching_cons]
      have := ih n (by simpa using h)
      omega

lemma pos_countFetching_of_mem {cs : List CallerState}
    (h : CallerState.fetching ∈ cs) : 0 < countFetching cs := by
  induction cs with
  | nil => cases h
  | cons d t ih =>
    rw [countFetching_cons]
    rcases List.mem_cons.mp h with h1 | h1
    · simp [← h1]
    · have := ih h1
      omega

lemma resolverInv_init (n : Nat) : ResolverInv (resolverInit n) := by
  refine ⟨rfl, ?_, ?_, ?_⟩
  · intro h
    simp [resolverInit] at h
  · show countFetching (List.replicate n CallerState.idle) = 0
    induction n with
    | zero => rfl
    | succ m ih =>
      rw [List.replicate_succ, countFetching_cons, ih]
      simp
  · intro p hp
    have h := List.eq_of_mem_replicate hp
    cases h

lemma resolverInv_step {s t : ResolverState} (h : ResolverStep s t)
    (hinv : ResolverInv s) : ResolverInv t := by
  obtain ⟨hl, hbc, hcf, hdone⟩ := hinv
  cases h with
  | checkHit i p hc hp =>
    refine ⟨hl, hbc, ?_, ?_⟩
    · have h0 := countFetching_set s.callers i (CallerState.done p) CallerState.idle hc
      rw [show (if CallerState.idle = CallerState.fetching then 1 else 0) = 0 from rfl,
        show (if CallerState.done p = CallerState.fetching then 1 else 0) = 0 from rfl,
        Nat.add_zero, Nat.add_zero] at h0
      show countFetching (s.callers.set i (CallerState.done p)) =
        if s.busy = true then 1 else 0
      rw [h0]
      exact hcf
    · intro q hq
      rcases List.mem_or_eq_of_mem_set hq with h1 | h1
      · exact hdone q h1
      · cases h1
        exact hp
  | checkBusy i hc hn hb =>
    refine ⟨hl, hbc, ?_, ?_⟩
    · have h0 := countFetching_set s.callers i CallerState.waiting CallerState.idle hc
      rw [show (if CallerState.idle = CallerState.fetching then 1 else 0) = 0 from rfl,
        show (if CallerState.waiting = CallerState.fetching then 1 else 0) = 0 from rfl,
        Nat.add_zero, Nat.add_zero] at h0
      show countFetching (s.callers.set i CallerState.waiting) =
        if s.busy = true then 1 else 0
      rw [h0]
      exact hcf
    · intro q hq
      rcases List.mem_or_eq_of_mem_set hq with h1 | h1
      · exact hdone q h1
      · cases h1
  | acquire i hc hn hb =>
    have hl0 : s.lookups = 0 := by
      rw [hl, hb, hn]
      rfl
    refine ⟨by simp [hl0], fun _ => rfl, ?_, ?_⟩
    · have h0 := countFetching_set s.callers i CallerState.fetching CallerState.idle hc
      rw [show (if CallerState.idle = CallerState.fetching then 1 else 0) = 0 from rfl,
        show (if CallerState.fetching = CallerState.fetching then 1 else 0) = 1 from rfl,
        Nat.add_zero, hcf, hb] at h0
      show countFetching (s.callers.set i CallerState.fetching) = if true = true then 1 else 0
      rw [h0]
      rfl
    · intro q hq
      rcases List.mem_or_eq_of_mem_set hq with h1 | h1
      · rw [hdone q h1] at hn
        cases hn
      · cases h1
  | complete i p hc =>
    have hmem : CallerState.fetching ∈ s.callers := List.get?_mem hc
    have hbusy : s.busy = true := by
      by_contra hb
      have hb' : s.busy = false := Bool.eq_false_iff.mpr hb
      rw [hb'] at hcf
      have hpos := pos_countFetching_of_mem hmem
      rw [hcf] at hpos
      cases hpos
    have hcn : s.cache = none := hbc hbusy
    have hl1 : s.lookups = 1 := by
      rw [hl, hbusy]
      rfl
    refine ⟨by simp [hl1], ?_, ?_, ?_⟩
    · intro h
      simp at h
    · have h0 := countFetching_set s.callers i (CallerState.done p) CallerState.fetching hc
      rw [show (if CallerState.fetching = CallerState.fetching then 1 else 0) = 1 from rfl,
        show (if CallerState.done p = CallerState.fetching then 1 else 0) = 0 from rfl,
        Nat.add_zero, hcf, hbusy] at h0
      show countFetching (s.callers.set i (CallerState.done p)) = if false = true then 1 else 0
      rw [show (if false = true then (1 : Nat) else 0) = 0 from rfl]
      rw [show (if true = true then (1 : Nat) else 0) = 1 from rfl] at h0
      omega
    · intro q hq
      rcases List.mem_or_eq_of_mem_set hq with h1 | h1
      · rw [hdone q h1] at hcn
        cases hcn
      · cases h1
        rfl
  | wake i p hc hp =>
    refine ⟨hl, hbc, ?_, ?_⟩
    · have h0 := countFetching_set s.callers i (CallerState.done p) CallerState.waiting hc
      rw [show (if CallerState.waiting = CallerState.fetching then 1 else 0) = 0 from rfl,
        show (if CallerState.done p = CallerState.fetching then 1 else 0) = 0 from rfl,
        Nat.add_zero, Nat.add_zero] at h0
      show countFetching (s.callers.set i (CallerState.done p)) =
        if s.busy = true then 1 else 0
      rw [h0]
      exact hcf
    · intro q hq
      rcases List.mem_or_eq_of_mem_set hq with h1 | h1
      · exact hdone q h1
      · cases h1
        exact hp

lemma resolverInv_reachable {n : Nat} {s : ResolverState}
    (h : ResolverReachable n s) : ResolverInv s := by
  have h' : Relation.ReflTransGen ResolverStep (resolverInit n) s := h
  clear h
  induction h' with
  | refl => exact resolverInv_init n
  | tail _ hstep ih => exact resolverInv_step hstep ih

/-! Lemmas about the division-key split. -/

/-- Replace underscores by hyphens; joining the underscore-separated
segments after the first with hyphens does exactly this to the remainder
of the key. -/
def dashify (c : Char) : Char :=
  if c = '_' then '-' else c

lemma splitUnderscore_cons (c : Char) (cs : List Char) :
    splitUnderscore (c :: cs) =
      if c = '_' then [] :: splitUnderscore cs
      else (c :: (splitUnderscore cs).headI) :: (splitUnderscore cs).tail := rfl

lemma splitUnderscore_ne_nil : ∀ l : List Char, splitUnderscore l ≠ [] := by
  intro l
  cases l with
  | nil => simp [splitUnderscore]
  | cons c cs =>
    rw [splitUnderscore_cons]
    by_cases hc : c = '_' <;> simp [hc]

lemma splitUnderscore_underscore_cons (b : List Char) :
    splitUnderscore ('_' :: b) = [] :: splitUnderscore b := by
  rw [splitUnderscore_cons]
  simp

lemma splitUnderscore_no_us_append (a : List Char) (ha : '_' ∉ a) :
    ∀ (l : List Char) (h : List Char) (t : List (List Char)),
      splitUnderscore l = h :: t →
      splitUnderscore (a ++ l) = (a ++ h) :: t := by
  induction a with
  | nil =>
    intro l h t hs
    simpa using hs
  | cons c a' ih =>
    intro l h t hs
    have hc : c ≠ '_' := fun hcon => ha (hcon ▸ List.mem_cons_self c a')
    have ha' : '_' ∉ a' := fun hcon => ha (List.mem_cons_of_mem c hcon)
    rw [List.cons_append, splitUnderscore_cons, ih ha' l h t hs]
    simp [hc]

lemma splitUnderscore_no_us (k : List Char) (hk : '_' ∉ k) :
    splitUnderscore k = [k] := by
  induction k with
  | nil => rfl
  | cons c cs ih =>
    have hc : c ≠ '_' := fun hcon => hk (hcon ▸ List.mem_cons_self c cs)
    have hcs : '_' ∉ cs := fun hcon => hk (List.mem_cons_of_mem c hcon)
    rw [splitUnderscore_cons, ih hcs]
    simp [hc]

lemma flatten_intersperse_cons_head (s : List Char) (c : Char) (h : List Char)
    (t : List (List Char)) :
    ((List.intersperse s ((c :: h) :: t)).flatten) =
      c :: (List.intersperse s (h :: t)).flatten := by
  cases t with
  | nil => rfl
  | cons y t' =>
    rw [List.intersperse_cons_cons, List.intersperse_cons_cons]
    simp

lemma flatten_intersperse_splitUnderscore (b : List Char) :
    ((splitUnderscore b).intersperse ['-']).flatten = b.map dashify := by
  induction b with
  | nil => rfl
  | cons c b' ih =>
    by_cases hc : c = '_'
    · subst hc
      rw [splitUnderscore_underscore_cons]
      rcases h : splitUnderscore b' with _ | ⟨h0, t0⟩
      · exact absurd h (splitUnderscore_ne_nil b')
      · rw [h] at ih
        rw [List.intersperse_cons_cons]
        simp only [List.map_cons]
        rw [show dashify '_' = '-' from rfl]
        simp only [List.flatten_cons, List.nil_append]
        rw [← ih]
        simp
    · rcases h : splitUnderscore b' with _ | ⟨h0, t0⟩
      · exact absurd h (splitUnderscore_ne_nil b')
      · have hsp : splitUnderscore (c :: b') = (c :: h0) :: t0 := by
          rw [splitUnderscore_cons, h]
          simp [hc]
        rw [hsp, flatten_intersperse_cons_head]
        rw [h] at ih
        rw [ih]
        simp only [List.map_cons]
        rw [show dashify c = c from if_neg hc]

/-! Concrete fixtures for the scenario parts of the claims. -/

/-- A poll record with the given id, subject, poll type, end date and
answers; the remaining fields are fixed filler values. -/
def mkPoll (i subj ptype endDate : String) (ans : List Answer) : Poll :=
  { id := i, subject := subj, poll_type := ptype, pollster := "pollster",
    start_date := endDate, end_date := endDate, sample_size := none,
    population := "lv", answers := ans, created_at := "", url := none }

/-- The two polls of the Biden-approval scenario of the spec. -/
def bidenPolls : List Poll :=
  [mkPoll "1" "Biden" "approval" "2024-01-01"
    [{ choice := "Approve", pct := 45 }, { choice := "Disapprove", pct := 50 }],
   mkPoll "2" "Biden" "approval" "2024-01-02"
    [{ choice := "Approve.", pct := 44 }, { choice := "Disapprove", pct := 51 }]]

/-- A poll whose single observed label is longer than its canonical key. -/
def c2Poll : Poll :=
  mkPoll "3" "X" "approval" "2024-01-01" [{ choice := "Approve.", pct := 44 }]

/-- A poll with one unmatched choice label. -/
def c5Poll : Poll :=
  mkPoll "4" "X" "approval" "2024-01-01" [{ choice := "A", pct := 44 }]

/-- An approval poll (mixed-case poll type). -/
def pApproval : Poll := mkPoll "5" "X" "Approval" "2024-01-01" []

/-- A poll whose type matches none of the color rules. -/
def pOther : Poll := mkPoll "6" "X" "horse-race" "2024-01-01" []

/-- A division with eleven distinct choices, for the top-ten cut. -/
def w11Polls : List Poll :=
  [mkPoll "7" "X" "primary" "2024-01-01"
    [{ choice := "C0", pct := 100 }, { choice := "C1", pct := 99 },
     { choice := "C2", pct := 98 }, { choice := "C3", pct := 97 },
     { choice := "C4", pct := 96 }, { choice := "C5", pct := 95 },
     { choice := "C6", pct := 94 }, { choice := "C7", pct := 93 },
     { choice := "C8", pct := 92 }, { choice := "C9", pct := 91 },
     { choice := "C10", pct := 90 }]]

/-- Three polls with the end dates of the sorting scenario. -/
def pJan : Poll := mkPoll "8" "X" "approval" "2024-01-01" []

/-- Second poll of the sorting scenario. -/
def pFeb : Poll := mkPoll "9" "X" "approval" "2024-02-01" []

/-- Third poll of the sorting scenario. -/
def pMar : Poll := mkPoll "10" "X" "approval" "2024-03-01" []

/-! Concrete evaluations of the pipeline on the fixtures. The rational
arithmetic is settled by norm_num; the string normalization steps are
decidable and supplied as rewrite facts. -/

lemma lookupStats_c2 :
    lookupStats (buildStats (allAnswers [c2Poll])) "Approve" =
      some { total := 44, count := 1, displayName := "Approve",
             originalNames := ["Approve."] } := by
  simp [allAnswers, c2Poll, mkPoll, buildStats, updateStats, lookupStats, setStats,
    show normalizeChoice "Approve." = "Approve" from by decide,
    show ¬ (jsLength "Approve." < jsLength "Approve") from by decide]

lemma uniqueChoices_biden :
    uniqueChoices bidenPolls =
      [{ normalized := "Disapprove", displayName := "Disapprove", average := 101 / 2 },
       { normalized := "Approve", displayName := "Approve", average := 89 / 2 }] := by
  simp [uniqueChoices, bidenPolls, mkPoll, allAnswers, buildStats, updateStats,
    lookupStats, setStats, lt_irrefl,
    show normalizeChoice "Approve" = "Approve" from by decide,
    show normalizeChoice "Approve." = "Approve" from by decide,
    show normalizeChoice "Disapprove" = "Disapprove" from by decide,
    show ¬ (jsLength "Approve." < jsLength "Approve") from by decide,
    List.insertionSort, List.orderedInsert, avgGE]
  norm_num

lemma uniqueChoices_c5 :
    uniqueChoices [c5Poll] =
      [{ normalized := "A", displayName := "A", average := 44 }] := by
  simp [uniqueChoices, c5Poll, mkPoll, allAnswers, buildStats, updateStats,
    lookupStats, setStats, lt_irrefl,
    show normalizeChoice "A" = "A" from by decide,
    List.insertionSort, List.orderedInsert, avgGE]

lemma uniqueChoices_w11 :
    uniqueChoices w11Polls =
      [{ normalized := "C0", displayName := "C0", average := 100 },
       { normalized := "C1", displayName := "C1", average := 99 },
       { normalized := "C2", displayName := "C2", average := 98 },
       { normalized := "C3", displayName := "C3", average := 97 },
       { normalized := "C4", displayName := "C4", average := 96 },
       { normalized := "C5", displayName := "C5", average := 95 },
       { normalized := "C6", displayName := "C6", average := 94 },
       { normalized := "C7", displayName := "C7", average := 93 },
       { normalized := "C8", displayName := "C8", average := 92 },
       { normalized := "C9", displayName := "C9", average := 91 },
       { normalized := "C10", displayName := "C10", average := 90 }] := by
  simp [uniqueChoices, w11Polls, mkPoll, allAnswers, buildStats, updateStats,
    lookupStats, setStats, lt_irrefl,
    show normalizeChoice "C0" = "C0" from by decide,
    show normalizeChoice "C1" = "C1" from by decide,
    show normalizeChoice "C2" = "C2" from by decide,
    show normalizeChoice "C3" = "C3" from by decide,
    show normalizeChoice "C4" = "C4" from by decide,
    show normalizeChoice "C5" = "C5" from by decide,
    show normalizeChoice "C6" = "C6" from by decide,
    show normalizeChoice "C7" = "C7" from by decide,
    show normalizeChoice "C8" = "C8" from by decide,
    show normalizeChoice "C9" = "C9" from by decide,
    show normalizeChoice "C10" = "C10" from by decide,
    List.insertionSort, List.orderedInsert, avgGE]
  norm_num

/-! The claims. -/

/-- Claim C1: any two choice labels that differ only in periods, commas,
or runs of whitespace (leading and trailing whitespace included) are
mapped by normalizeChoice to the same canonical key; in particular
"R.F.K. Jr.", "RFK Jr" and "RFK  Jr." all normalize to the one key
"RFK Jr". -/
theorem c1_normalize_punct_ws_equiv :
    (∀ s t : String, LabelEquiv s.data t.data → normalizeChoice s = normalizeChoice t) ∧
    normalizeChoice "R.F.K. Jr." = "RFK Jr" ∧
    normalizeChoice "RFK Jr" = "RFK Jr" ∧
    normalizeChoice "RFK  Jr." = "RFK Jr" := by
  refine ⟨?_, by decide, by decide, by decide⟩
  intro s t h
  show (⟨normalizeCore s.data⟩ : String) = ⟨normalizeCore t.data⟩
  rw [normalizeCore_labelEquiv h]

/-- Witness for C1: one period-removal edit links "RFK Jr." to "RFK Jr",
and the theorem then forces equal keys. -/
theorem c1_witness : normalizeChoice "RFK Jr." = normalizeChoice "RFK Jr" :=
  c1_normalize_punct_ws_equiv.1 "RFK Jr." "RFK Jr"
    (Relation.ReflTransGen.single
      (Or.inl (LabelStep.period ['R', 'F', 'K', ' ', 'J', 'r'] [])))

/-- Claim C8: normalizeChoice is idempotent — normalizing an
already-normalized label returns it unchanged. -/
theorem c8_normalize_idempotent :
    ∀ s : String, normalizeChoice (normalizeChoice s) = normalizeChoice s := by
  intro s
  show (⟨normalizeCore (normalizeCore s.data)⟩ : String) = ⟨normalizeCore s.data⟩
  rw [normalizeCore_eq_self (normalizedForm_normalizeCore s.data)]

/-- Claim C6: the sort run on each division's poll list by handleSearch
(page.tsx) orders polls by end date descending (a permutation of the
input), and the end dates [2024-01-01, 2024-03-01, 2024-02-01] come out
as [2024-03-01, 2024-02-01, 2024-01-01]. -/
theorem c6_polls_sorted_desc :
    (∀ polls : List Poll,
      List.Sorted endDateGE (sortPollsByEndDateDesc polls) ∧
      (sortPollsByEndDateDesc polls).Perm polls) ∧
    (sortPollsByEndDateDesc [pJan, pMar, pFeb]).map Poll.end_date =
      ["2024-03-01", "2024-02-01", "2024-01-01"] := by
  refine ⟨?_, by decide⟩
  intro polls
  exact ⟨List.sorted_insertionSort endDateGE polls, List.perm_insertionSort endDateGE polls⟩

/-- Claim C10: handleSearch parses a division key by taking the segment
before the first underscore as subject and joining the remaining
underscore-separated segments with hyphens as poll type, so a subject
containing an underscore is truncated there and its remainder folds into
the displayed poll type; a key without underscore is all subject. -/
theorem c10_division_key_parsing :
    (∀ a b : List Char, '_' ∉ a →
      parseDivisionKeyCore (a ++ '_' :: b) = (a, b.map dashify)) ∧
    (∀ k : List Char, '_' ∉ k → parseDivisionKeyCore k = (k, [])) := by
  constructor
  · intro a b ha
    have hs : splitUnderscore (a ++ '_' :: b) = a :: splitUnderscore b := by
      have h1 := splitUnderscore_underscore_cons b
      have h2 := splitUnderscore_no_us_append a ha ('_' :: b) [] (splitUnderscore b) h1
      simpa using h2
    have hp : parseDivisionKeyCore (a ++ '_' :: b) =
        (a, ((splitUnderscore b).intersperse ['-']).flatten) := by
      unfold parseDivisionKeyCore
      rw [hs]
    rw [hp, flatten_intersperse_splitUnderscore]
  · intro k hk
    unfold parseDivisionKeyCore
    rw [splitUnderscore_no_us k hk]
    rfl

/-- Witness for C10: the key New_York_approval is parsed with subject
"New" and poll type "York-approval". -/
theorem c10_witness :
    parseDivisionKeyCore ("New".data ++ '_' :: "York_approval".data) =
      ("New".data, "York_approval".data.map dashify) ∧
    parseDivisionKey "New_York_approval" = ("New", "York-approval") :=
  ⟨c10_division_key_parsing.1 "New".data "York_approval".data (by decide), by decide⟩

/-- Counterexample to C2 as stated: for the single observed label
"Approve." the cluster's display name is the canonical key "Approve",
which is not one of the observed original labels and is strictly shorter
than the shortest observed label. -/
theorem c2_counterexample :
    lookupStats (buildStats (allAnswers [c2Poll])) "Approve" =
      some { total := 44, count := 1, displayName := "Approve",
             originalNames := ["Approve."] } ∧
    ("Approve" : String) ∉ (["Approve."] : List String) ∧
    jsLength "Approve" < jsLength "Approve." :=
  ⟨lookupStats_c2, by decide, by decide⟩

/-- Claim C2 (amended): for every non-empty cluster the display name is
the shortest of the canonical key and the observed original labels —
the canonical key counting as seen first, earlier candidates winning
ties — so it is the canonical key or an observed label. -/
theorem c2_display_name_shortest_with_key (polls : List Poll) (k : String) (s : Stats)
    (h : lookupStats (buildStats (allAnswers polls)) k = some s) :
    s.displayName ∈ k :: s.originalNames ∧
    ∃ l₁ l₂, k :: s.originalNames = l₁ ++ s.displayName :: l₂ ∧
      (∀ c ∈ l₁, jsLength s.displayName < jsLength c) ∧
      (∀ c ∈ l₂, jsLength s.displayName ≤ jsLength c) := by
  rw [lookupStats_buildStats] at h
  simp only [statsSpec] at h
  by_cases hcs : contribsA (allAnswers polls) k = []
  · rw [if_pos hcs] at h
    cases h
  · rw [if_neg hcs] at h
    have hst := Option.some.inj h
    subst hst
    obtain ⟨l₁, l₂, hdec, hlt, hle⟩ :=
      foldl_pickShorter_decomp k ((contribsA (allAnswers polls) k).map Answer.choice)
    constructor
    · show ((contribsA (allAnswers polls) k).map Answer.choice).foldl pickShorter k ∈
        k :: (contribsA (allAnswers polls) k).map Answer.choice
      rw [hdec]
      exact List.mem_append.mpr (Or.inr (List.mem_cons_self _ _))
    · exact ⟨l₁, l₂, hdec, hlt, hle⟩

/-- Witness for C2 (amended), at the cluster built from the label
"Approve." alone. -/
theorem c2_witness :
    ("Approve" : String) ∈ ("Approve" : String) :: ["Approve."] ∧
    ∃ l₁ l₂, ("Approve" : String) :: ["Approve."] = l₁ ++ "Approve" :: l₂ ∧
      (∀ c ∈ l₁, jsLength "Approve" < jsLength c) ∧
      (∀ c ∈ l₂, jsLength "Approve" ≤ jsLength c) :=
  c2_display_name_shortest_with_key [c2Poll] "Approve"
    { total := 44, count := 1, displayName := "Approve", originalNames := ["Approve."] }
    lookupStats_c2

/-- Claim C4: every reported choice average is the plain sum of the
cluster's answer percentages divided by the number of contributing
answers, with no sample-size weighting; on the Biden-approval scenario
the averages are Approve 44.5 and Disapprove 50.5. -/
theorem c4_average_unweighted :
    (∀ (polls : List Poll) (e : UItem), e ∈ uniqueChoices polls →
      (contribsA (allAnswers polls) e.normalized).length ≠ 0 ∧
      e.average = ((contribsA (allAnswers polls) e.normalized).map Answer.pct).sum /
        ((contribsA (allAnswers polls) e.normalized).length : ℚ)) ∧
    (uniqueChoices bidenPolls).map (fun e => (e.displayName, e.average)) =
      [("Disapprove", (101 : ℚ) / 2), ("Approve", (89 : ℚ) / 2)] := by
  refine ⟨?_, by rw [uniqueChoices_biden]; rfl⟩
  intro polls e he
  unfold uniqueChoices at he
  have he2 := (List.perm_insertionSort avgGE _).mem_iff.mp he
  obtain ⟨⟨k, st⟩, hmem, rfl⟩ := List.mem_map.mp he2
  have hl := lookupStats_of_mem _ k st (nodup_keysOf_buildStats _) hmem
  rw [lookupStats_buildStats] at hl
  simp only [statsSpec] at hl
  by_cases hcs : contribsA (allAnswers polls) k = []
  · rw [if_pos hcs] at hl
    cases hl
  · rw [if_neg hcs] at hl
    have hst := Option.some.inj hl
    subst hst
    exact ⟨fun h0 => hcs (List.length_eq_zero.mp h0), rfl⟩

/-- Witness for C4: the Approve cluster of the Biden scenario has two
contributing answers and average 44.5. -/
theorem c4_witness :
    (contribsA (allAnswers bidenPolls) "Approve").length ≠ 0 ∧
    ({ normalized := "Approve", displayName := "Approve",
       average := (89 : ℚ) / 2 } : UItem).average =
      ((contribsA (allAnswers bidenPolls) "Approve").map Answer.pct).sum /
        ((contribsA (allAnswers bidenPolls) "Approve").length : ℚ) :=
  c4_average_unweighted.1 bidenPolls
    { normalized := "Approve", displayName := "Approve", average := (89 : ℚ) / 2 }
    (by rw [uniqueChoices_biden]; exact List.mem_cons_of_mem _ (List.mem_singleton.mpr rfl))

/-- Claim C9: calculateChoicesWithColors returns exactly the ten (or
fewer) highest-average choices, sorted by average descending; choices
beyond the tenth are dropped and every dropped choice's average is at
most every returned one's. -/
theorem c9_top_ten_sorted (polls : List Poll) (colorMap : List (String × String)) :
    (calculateChoicesWithColors polls colorMap).length =
      min 10 (uniqueChoices polls).length ∧
    List.Pairwise (fun x y : ChoiceData => y.average ≤ x.average)
      (calculateChoicesWithColors polls colorMap) ∧
    (calculateChoicesWithColors polls colorMap).map ChoiceData.average =
      ((uniqueChoices polls).take 10).map UItem.average ∧
    ∀ x ∈ (uniqueChoices polls).drop 10,
      ∀ y ∈ calculateChoicesWithColors polls colorMap, x.average ≤ y.average := by
  have hsorted : List.Sorted avgGE (uniqueChoices polls) := by
    unfold uniqueChoices
    exact List.sorted_insertionSort avgGE _
  refine ⟨?_, ?_, ?_, ?_⟩
  · simp [calculateChoicesWithColors]
  · have h1 : List.Pairwise avgGE ((uniqueChoices polls).take 10) :=
      List.Pairwise.sublist (List.take_sublist 10 _) hsorted
    exact List.Pairwise.map _ (fun a b hab => hab) h1
  · simp only [calculateChoicesWithColors, List.map_map]
    rfl
  · intro x hx y hy
    have hpw : List.Pairwise avgGE
        ((uniqueChoices polls).take 10 ++ (uniqueChoices polls).drop 10) := by
      rw [List.take_append_drop]
      exact hsorted
    have hcross := (List.pairwise_append.mp hpw).2.2
    obtain ⟨u, hu, rfl⟩ := List.mem_map.mp hy
    exact hcross u hu x hx

/-- Witness for C9: in an eleven-choice division the eleventh choice is
dropped and its average is below the retained top choice's. -/
theorem c9_witness :
    ({ normalized := "C10", displayName := "C10", average := 90 } : UItem).average ≤
      ({ displayName := "C0", average := 100, color := "#7f7f7f" } : ChoiceData).average :=
  (c9_top_ten_sorted w11Polls []).2.2.2
    { normalized := "C10", displayName := "C10", average := 90 }
    (by rw [uniqueChoices_w11]; exact List.mem_singleton.mpr rfl)
    { displayName := "C0", average := 100, color := "#7f7f7f" }
    (by
      show _ ∈ ((uniqueChoices w11Polls).take 10).map _
      rw [uniqueChoices_w11]
      exact List.mem_cons_self _ _)

/-- Counterexample to C3 as stated: for an approval poll whose winning
choice normalizes to approve, a color-map entry takes precedence in
getWinnerColor and the returned color is not the fixed green. -/
theorem c3_counterexample :
    lowerStr pApproval.poll_type = "approval" ∧
    lowerStr (normalizeChoice "Approve") = "approve" ∧
    getWinnerColor [("Approve", "#123456")] pApproval "Approve" = "#123456" ∧
    ("#123456" : String) ≠ "#288544" := by decide

/-- Claim C3 (amended): when the division color map has no entry for the
choice, getWinnerColor colors approve/favorable green and
disapprove/unfavorable orange for approval and favorability poll types,
and dem blue and rep red for generic-ballot, all matched
case-insensitively on the normalized key. -/
theorem c3_winner_color_rules (cm : List (String × String)) (poll : Poll) (w : String)
    (hcm : lookupCM cm w = none) :
    ((lowerStr poll.poll_type = "approval" ∨ lowerStr poll.poll_type = "favorability") →
      ((lowerStr (normalizeChoice w) = "approve" ∨
          lowerStr (normalizeChoice w) = "favorable") →
        getWinnerColor cm poll w = "#288544") ∧
      ((lowerStr (normalizeChoice w) = "disapprove" ∨
          lowerStr (normalizeChoice w) = "unfavorable") →
        getWinnerColor cm poll w = "#e08728")) ∧
    (lowerStr poll.poll_type = "generic-ballot" →
      (lowerStr (normalizeChoice w) = "dem" → getWinnerColor cm poll w = "#2853e0") ∧
      (lowerStr (normalizeChoice w) = "rep" → getWinnerColor cm poll w = "#e02f28")) := by
  have hg : getWinnerColor cm poll w = getWinnerFallbackColor poll w := by
    unfold getWinnerColor
    rw [hcm]
  rw [hg]
  constructor
  · intro hpt
    constructor
    · intro hw
      rcases hpt with h1 | h1 <;> rcases hw with h2 | h2 <;>
        simp [getWinnerFallbackColor, h1, h2]
    · intro hw
      rcases hpt with h1 | h1 <;> rcases hw with h2 | h2 <;>
        simp [getWinnerFallbackColor, h1, h2]
  · intro h1
    constructor <;> intro h2 <;> simp [getWinnerFallbackColor, h1, h2]

/-- Witness for C3 (amended): with an empty color map an approval poll's
Approve choice is colored the fixed green. -/
theorem c3_witness : getWinnerColor [] pApproval "Approve" = "#288544" :=
  ((c3_winner_color_rules [] pApproval "Approve" rfl).1
    (Or.inl (by decide))).1 (Or.inl (by decide))

/-- The result of calculateChoicesWithColors on the one-choice fixture,
with the gray fallback color. -/
lemma calc_c5_eval :
    calculateChoicesWithColors [c5Poll] [] =
      [{ displayName := "A", average := 44, color := "#7f7f7f" }] := by
  unfold calculateChoicesWithColors
  rw [uniqueChoices_c5]
  rfl

/-- Counterexample to C5 as stated: a display name absent from the color
map receives the gray fallback of calculateChoicesWithColors, not plain
black. -/
theorem c5_counterexample :
    calculateChoicesWithColors [c5Poll] [] =
      [{ displayName := "A", average := 44, color := "#7f7f7f" }] ∧
    ("#7f7f7f" : String) ≠ "#000000" :=
  ⟨calc_c5_eval, by decide⟩

/-- Claim C5 (amended): every returned choice entry carries a color —
the color map's truthy entry when present, else the gray fallback of
calculateChoicesWithColors — while getWinnerColor returns plain black
when the color map has no entry and no poll-type rule applies. -/
theorem c5_color_total_gray_fallback :
    (∀ (polls : List Poll) (cm : List (String × String)) (e : ChoiceData),
      e ∈ calculateChoicesWithColors polls cm →
      e.color = jsOr (lookupCM cm e.displayName) "#7f7f7f") ∧
    (∀ (polls : List Poll) (cm : List (String × String)) (e : ChoiceData),
      e ∈ calculateChoicesWithColors polls cm →
      lookupCM cm e.displayName = none → e.color = "#7f7f7f") ∧
    (∀ (cm : List (String × String)) (poll : Poll) (w : String),
      lookupCM cm w = none →
      lowerStr poll.poll_type ≠ "approval" →
      lowerStr poll.poll_type ≠ "favorability" →
      lowerStr poll.poll_type ≠ "generic-ballot" →
      getWinnerColor cm poll w = "#000000") := by
  refine ⟨?_, ?_, ?_⟩
  · intro polls cm e he
    obtain ⟨u, hu, rfl⟩ := List.mem_map.mp he
    rfl
  · intro polls cm e he hnone
    obtain ⟨u, hu, rfl⟩ := List.mem_map.mp he
    have h1 : lookupCM cm u.displayName = none := hnone
    show jsOr (lookupCM cm u.displayName) "#7f7f7f" = "#7f7f7f"
    rw [h1]
    rfl
  · intro cm poll w hcm h1 h2 h3
    unfold getWinnerColor
    rw [hcm]
    simp [getWinnerFallbackColor, h1, h2, h3]

/-- Witness for C5 (amended): the single fixture entry gets the gray
fallback, and an unmatched poll type with an empty color map gets
black from getWinnerColor. -/
theorem c5_witness :
    ({ displayName := "A", average := 44, color := "#7f7f7f" } : ChoiceData).color =
      jsOr (lookupCM [] "A") "#7f7f7f" ∧
    getWinnerColor [] pOther "X" = "#000000" :=
  ⟨c5_color_total_gray_fallback.1 [c5Poll] []
      { displayName := "A", average := 44, color := "#7f7f7f" }
      (by rw [calc_c5_eval]; exact List.mem_singleton.mpr rfl),
    c5_color_total_gray_fallback.2.2 [] pOther "X" rfl (by decide) (by decide) (by decide)⟩

/-- Claim C7 (spec-modelled): under any interleaving of N concurrent
resolutions of one previously-unseen candidate name, at most one
external lookup is ever started, a finished caller implies exactly one
lookup happened, and any two finished callers received the same party. -/
theorem c7_single_flight (n : Nat) (s : ResolverState) (h : ResolverReachable n s) :
    s.lookups ≤ 1 ∧
    (∀ p : Party, CallerState.done p ∈ s.callers → s.lookups = 1) ∧
    (∀ p q : Party, CallerState.done p ∈ s.callers →
      CallerState.done q ∈ s.callers → p = q) := by
  obtain ⟨hl, hbc, hcf, hdone⟩ := resolverInv_reachable h
  refine ⟨?_, ?_, ?_⟩
  · rw [hl]
    by_cases hb : (s.busy || s.cache.isSome) = true <;> simp [hb]
  · intro p hp
    rw [hl, hdone p hp]
    simp
  · intro p q hp hq
    have h1 := hdone p hp
    have h2 := hdone q hq
    rw [h1] at h2
    exact Option.some.inj h2

/-- A final state of a two-caller run: the first caller acquired the
lock and completed the lookup, the second hit the cache. -/
def c7FinalState : ResolverState :=
  { cache := some Party.democrat, busy := false,
    callers := [CallerState.done Party.democrat, CallerState.done Party.democrat],
    lookups := 1 }

/-- The three-step schedule reaching that final state. -/
lemma c7_reachable_example : ResolverReachable 2 c7FinalState := by
  have h1 : ResolverStep (resolverInit 2)
      { cache := none, busy := true,
        callers := [CallerState.fetching, CallerState.idle], lookups := 1 } :=
    ResolverStep.acquire (resolverInit 2) 0 rfl rfl rfl
  have h2 : ResolverStep
      { cache := none, busy := true,
        callers := [CallerState.fetching, CallerState.idle], lookups := 1 }
      { cache := some Party.democrat, busy := false,
        callers := [CallerState.done Party.democrat, CallerState.idle], lookups := 1 } :=
    ResolverStep.complete _ 0 Party.democrat rfl
  have h3 : ResolverStep
      { cache := some Party.democrat, busy := false,
        callers := [CallerState.done Party.democrat, CallerState.idle], lookups := 1 }
      c7FinalState :=
    ResolverStep.checkHit _ 1 Party.democrat rfl rfl
  exact Relation.ReflTransGen.tail
    (Relation.ReflTransGen.tail (Relation.ReflTransGen.single h1) h2) h3

/-- Witness for C7: in the two-caller run above exactly one external
lookup was started. -/
theorem c7_witness : c7FinalState.lookups ≤ 1 ∧ c7FinalState.lookups = 1 :=
  ⟨(c7_single_flight 2 c7FinalState c7_reachable_example).1,
   (c7_single_flight 2 c7FinalState c7_reachable_example).2.1 Party.democrat
     (List.mem_cons_self _ _)⟩

end VoteHub
